import Mathlib

/-! Verification of the silo transactional core (`src/txn.h`).

Shallow embedding of the `transaction` / `transaction::logical_node` /
`transaction::key_range_t` declarations of `src/txn.h`, together with proofs
of the specification claims about them.

Machine integers (`uint64_t`) are modelled as `Nat` with explicit `% 2^64`
where C overflow semantics matter.  `uint8_t*` record pointers are modelled as
`Option Nat` (with `none` for `NULL`).  Keys (`varkey` / `std::string`) are
byte sequences compared lexicographically, modelled as `List Nat` with its
lexicographic linear order.
-/

namespace Silo

/-- Source `typedef uint64_t tid_t;` -/
abbrev tid_t := Nat

/-- Source `typedef uint8_t* record_t;` — a nullable pointer; `none` models `NULL`. -/
abbrev record_t := Option Nat

/-- Source `static const tid_t MIN_TID = 0;` -/
def MIN_TID : tid_t := 0

/-- Source `typedef varkey key_type;` — an opaque totally ordered byte-sequence key;
`varkey`/`std::string` comparison is lexicographic on bytes, modelled as
`List Nat` with its lexicographic linear order. -/
abbrev key_type := List Nat

/-- Source `struct key_range_t`: a half-open key range `[a, b)`;
`has_b = false` indicates the upper bound is infinity, in which case `b` has
no meaning. -/
structure key_range_t where
  a : key_type
  has_b : Bool
  b : key_type
deriving DecidableEq

/-- Source `key_range_t::is_empty_range()`: `return has_b && a >= b;` -/
def key_range_t.is_empty_range (r : key_range_t) : Bool :=
  r.has_b && decide (r.b ≤ r.a)

/-- Source `key_range_t::contains(that)`:
`if (a > that.a) return false; if (!has_b) return true;
if (!that.has_b) return false; return b >= that.b;` -/
def key_range_t.contains (self that : key_range_t) : Bool :=
  if decide (that.a < self.a) then false
  else if !self.has_b then true
  else if !that.has_b then false
  else decide (that.b ≤ self.b)

/-- Source `key_range_t::key_in_range(k)`:
`return a <= varkey(k) && (!has_b || varkey(k) < b);` -/
def key_range_t.key_in_range (r : key_range_t) (k : key_type) : Bool :=
  decide (r.a ≤ k) && (!r.has_b || decide (k < r.b))

/-- Source `transaction::key_range_search_less_cmp::operator()(k, range)`:
`return !range.has_b || k < varkey(range.b);` -/
def key_range_search_less_cmp (k : key_type) (range : key_range_t) : Bool :=
  !range.has_b || decide (k < range.b)

/-! Section: Embedding of `struct logical_node`

The versioned record.  The header word `hdr` packs
`[ locked | num_versions | version ]` at bits `[0..1 | 1..5 | 5..64]`.
The parallel arrays `versions[15]` / `values[15]` are modelled as total
functions from slot index; slots `≥ size()` are uninitialized in the C code
and never read by any of the operations below. -/

structure logical_node where
  hdr : Nat
  versions : Nat → tid_t
  values : Nat → record_t

namespace logical_node

/-- Source `static const uint64_t HDR_LOCKED_MASK = 0x1;` -/
def HDR_LOCKED_MASK : Nat := 0x1

/-- Source `static const uint64_t HDR_SIZE_SHIFT = 1;` -/
def HDR_SIZE_SHIFT : Nat := 1

/-- Source `static const uint64_t HDR_SIZE_MASK = 0xf << HDR_SIZE_SHIFT;` -/
def HDR_SIZE_MASK : Nat := 0xf <<< HDR_SIZE_SHIFT

/-- Source `static const uint64_t HDR_VERSION_SHIFT = 5;` -/
def HDR_VERSION_SHIFT : Nat := 5

/-- Source `static const uint64_t HDR_VERSION_MASK = ((uint64_t)-1) << HDR_VERSION_SHIFT;`
(`(uint64_t)-1` is `2^64 - 1`; the shift wraps modulo `2^64`). -/
def HDR_VERSION_MASK : Nat := ((2 ^ 64 - 1) <<< HDR_VERSION_SHIFT) % 2 ^ 64

/-- Source `static const size_t NVersions = 15;` -/
def NVersions : Nat := 15

/-- The 64-bit bitwise complement `~m` of a mask, as in `hdr &= ~MASK`. -/
def compl64 (m : Nat) : Nat := (2 ^ 64 - 1) ^^^ m

/-- Source `static bool IsLocked(uint64_t v) { return v & HDR_LOCKED_MASK; }`
(nonzero means true). -/
def IsLocked (v : Nat) : Bool := decide (v &&& HDR_LOCKED_MASK ≠ 0)

/-- Source `static size_t Size(uint64_t v) { return (v & HDR_SIZE_MASK) >> HDR_SIZE_SHIFT; }` -/
def Size (v : Nat) : Nat := (v &&& HDR_SIZE_MASK) >>> HDR_SIZE_SHIFT

/-- Source `static uint64_t Version(uint64_t v) { return (v & HDR_VERSION_MASK) >> HDR_VERSION_SHIFT; }` -/
def Version (v : Nat) : Nat := (v &&& HDR_VERSION_MASK) >>> HDR_VERSION_SHIFT

/-- Source `set_size(n)` on a header word:
`hdr &= ~HDR_SIZE_MASK; hdr |= (n << HDR_SIZE_SHIFT);`
(the caller guarantees `n <= NVersions`). -/
def set_size (hdr : Nat) (n : Nat) : Nat :=
  (hdr &&& compl64 HDR_SIZE_MASK) ||| (n <<< HDR_SIZE_SHIFT)

/-- The header word computed by `unlock()`:
`uint64_t n = Version(v);
v &= ~HDR_VERSION_MASK;
v |= (((n + 1) << HDR_VERSION_SHIFT) & HDR_VERSION_MASK);
v &= ~HDR_LOCKED_MASK;`
The shift `(n + 1) << HDR_VERSION_SHIFT` is 64-bit arithmetic, hence the
explicit `% 2^64`.  The failed `INVARIANT(IsLocked(v))` at entry (a fatal
invariant violation) is modelled as `none` in `unlock` below. -/
def unlock_word (v : Nat) : Nat :=
  ((v &&& compl64 HDR_VERSION_MASK) |||
      ((((Version v + 1) <<< HDR_VERSION_SHIFT) % 2 ^ 64) &&& HDR_VERSION_MASK))
    &&& compl64 HDR_LOCKED_MASK

/-- Source `unlock()` proper: check the invariant, then publish `unlock_word hdr`. -/
def unlock (v : Nat) : Option Nat :=
  if IsLocked v then some (unlock_word v) else none

/-- Source `size()` of a node: `return Size(hdr);` -/
def size (node : logical_node) : Nat := Size node.hdr

/-- The `logical_node()` constructor:
`hdr(0)`, then `set_size(1); versions[0] = MIN_TID; values[0] = NULL;`
(array slots other than slot 0 are uninitialized and never read while
`size() = 1`; they are given arbitrary defaults here). -/
def init : logical_node where
  hdr := set_size 0 1
  versions := fun i => if i = 0 then MIN_TID else 0
  values := fun _ => none

/-- The descending scan of `record_at`:
`for (ssize_t i = n - 1; i >= 0; i--) if (versions[i] <= t) { ... return true; } return false;`
`record_at_scan vs vals t m` examines slots `m-1, m-2, …, 0` in that order and
returns the first slot whose timestamp is `≤ t`. -/
def record_at_scan (vs : Nat → tid_t) (vals : Nat → record_t) (t : tid_t) :
    Nat → Option (tid_t × record_t)
  | 0 => none
  | m + 1 =>
    if vs m ≤ t then some (vs m, vals m)
    else record_at_scan vs vals t m

/-- Source `record_at(t, start_t, r)`: linear scan from the newest slot down.
`some (start_t, r)` models returning `true` with the out-parameters set;
`none` models returning `false` (the record at this tid was GC-ed). -/
def record_at (node : logical_node) (t : tid_t) : Option (tid_t × record_t) :=
  record_at_scan node.versions node.values t node.size

/-- The slow-path scan of `is_snapshot_consistent`:
`for (ssize_t i = n - 2; i >= 0; i--) if (versions[i] <= snapshot_tid) return versions[i + 1] > commit_tid; return false;`
`snapshot_scan vs snapshot_tid commit_tid m` examines slots `m-1, …, 0`. -/
def snapshot_scan (vs : Nat → tid_t) (snapshot_tid commit_tid : tid_t) : Nat → Bool
  | 0 => false
  | m + 1 =>
    if vs m ≤ snapshot_tid then decide (commit_tid < vs (m + 1))
    else snapshot_scan vs snapshot_tid commit_tid m

/-- Source `is_snapshot_consistent(snapshot_tid, commit_tid)`: fast path takes the
newest version `≤ snapshot_tid`; the slow path scans downward from slot
`n - 2`. -/
def is_snapshot_consistent (node : logical_node)
    (snapshot_tid commit_tid : tid_t) : Bool :=
  if node.versions (node.size - 1) ≤ snapshot_tid then true
  else snapshot_scan node.versions snapshot_tid commit_tid (node.size - 1)

/-- Source `write_record_at(t, r)` (under the lock, with
`INVARIANT(versions[n-1] < t)`):
if the chain is full (`n == NVersions`) drop the oldest slot by shifting every
slot down one and put `(t, r)` in the last slot, leaving `hdr` unchanged;
otherwise store `(t, r)` in slot `n` and `set_size(n + 1)`. -/
def write_record_at (node : logical_node) (t : tid_t) (r : record_t) :
    logical_node :=
  let n := node.size
  if n = NVersions then
    { node with
      versions := fun i =>
        if i < NVersions - 1 then node.versions (i + 1)
        else if i = NVersions - 1 then t
        else node.versions i,
      values := fun i =>
        if i < NVersions - 1 then node.values (i + 1)
        else if i = NVersions - 1 then r
        else node.values i }
  else
    { node with
      hdr := set_size node.hdr (n + 1),
      versions := fun i => if i = n then t else node.versions i,
      values := fun i => if i = n then r else node.values i }

end logical_node

/-- The chain invariant of §3: `versions` is strictly increasing over the
populated slots (`index 0..count-1 hold … pairs in strictly increasing
timestamp order`). -/
def StrictIncr (f : Nat → tid_t) (n : Nat) : Prop :=
  ∀ j, j < n → ∀ i, i < j → f i < f j

instance (f : Nat → tid_t) (n : Nat) : Decidable (StrictIncr f n) :=
  inferInstanceAs (Decidable (∀ j, j < n → ∀ i, i < j → f i < f j))

/-! Section: Embedding of the absent-range set (phantom protection)

`transaction::add_absent_range` and `transaction::key_in_absent_set` are only
declared in `src/txn.h`; their bodies are modelled from the spec (§4.2). -/

/-- The ordering/disjointness relation of `AssertValidRangeSet` (§4.2: ranges
are "sorted and disjoint"): `x` is a bounded range lying entirely at or below
the start of `y`. -/
def RangeBefore (x y : key_range_t) : Prop := x.has_b = true ∧ x.b ≤ y.a

/-- The `absent_range_set` invariant (§3: "an ordered, non-overlapping
collection of half-open key ranges"): every stored range is non-empty and the
ranges are pairwise ordered and disjoint. -/
def ValidRangeSet (s : List key_range_t) : Prop :=
  (∀ r ∈ s, r.is_empty_range = false) ∧ s.Pairwise RangeBefore

/-- Test that `x` lies entirely strictly below `y`: bounded, with a gap before `y`
starts (no overlap and not even adjacent). -/
def range_strictly_before (x y : key_range_t) : Bool :=
  x.has_b && decide (x.b < y.a)

/-- The union of two overlapping-or-adjacent ranges: lower bound is the
smaller `a`; the result is bounded iff both are, with the larger `b`
(`b` is meaningless when `has_b` is false). -/
def range_union (r x : key_range_t) : key_range_t where
  a := min r.a x.a
  has_b := r.has_b && x.has_b
  b := max r.b x.b

/-- Modelled from the spec: the body of `transaction::add_absent_range` is
missing from `src/txn.h` (only its declaration is present).  Per §4.2 it
"inserts a proven-empty interval into `absent_range_set`, merging with or
being contained by existing ranges, maintaining the non-overlap invariant".
`insert_range` walks the sorted range set, keeps the ranges lying strictly
below the new one, and merges the new range with every existing range it
overlaps or touches, until the remainder of the set lies strictly above. -/
def insert_range (r : key_range_t) : List key_range_t → List key_range_t
  | [] => [r]
  | x :: xs =>
    if range_strictly_before x r then x :: insert_range r xs
    else if range_strictly_before r x then r :: x :: xs
    else insert_range (range_union r x) xs

/-- Modelled from the spec: `transaction::add_absent_range(range)` applied to
the current `absent_range_set`; an empty input range (`is_empty_range`)
denotes no keys and leaves the set unchanged. -/
def add_absent_range (s : List key_range_t) (range : key_range_t) :
    List key_range_t :=
  if range.is_empty_range then s else insert_range range s

/-- Modelled from the spec: the body of `transaction::key_in_absent_set` is
missing from `src/txn.h` (only its declaration is present).  Per §4.2 it is a
"binary search using an ordering in which a key compares less-than a range if
the key precedes the range's upper bound (or the range is unbounded)"; the
comparator's comment in `src/txn.h` states that `upper_bound()` with
`key_range_search_less_cmp` returns the first range whose upper bound is
greater than `k`, without guaranteeing its lower bound is `≤ k` — so the
found range must still be checked with `key_in_range`.  On a sorted set the
`upper_bound()` binary search returns the first element satisfying the
comparator, modelled as `List.find?`. -/
def key_in_absent_set (s : List key_range_t) (k : key_type) : Bool :=
  match s.find? (fun range => key_range_search_less_cmp k range) with
  | some range => range.key_in_range k
  | none => false

/-- Membership of a key in the union of a collection of ranges (the reference
semantics the spec's round-trip property compares against). -/
def key_in_ranges (s : List key_range_t) (k : key_type) : Bool :=
  s.any (fun range => range.key_in_range k)

/-! Section: Transaction-local search -/

/-- Source `struct read_record_t { tid_t t; record_t r; logical_node *ln; };`
the node pointer is modelled as an opaque identifier. -/
structure read_record_t where
  t : tid_t
  r : record_t
  ln : Nat

/-- Modelled from the spec: the body of `transaction::local_search_str` is
missing from `src/txn.h` (only its declaration is present).  Per §4.2,
`local_search` "checks `write_set` first (read-your-own-writes, including
tombstones …); if absent there, checks `read_set` …; returns not-found if
neither holds a record for the key".  The `std::map`s are modelled as
association lists; `some v` models returning `true` with out-parameter `v`. -/
def local_search_str (write_set : List (key_type × record_t))
    (read_set : List (key_type × read_record_t)) (k : key_type) :
    Option record_t :=
  match write_set.lookup k with
  | some v => some v
  | none =>
    match read_set.lookup k with
    | some rr => some rr.r
    | none => none

/-- Source `transaction::local_search(k)`: copies the key
(`string sk(k.data(), k.size());`) and calls `local_search_str`; the copy is
the identity in this model. -/
def local_search (write_set : List (key_type × record_t))
    (read_set : List (key_type × read_record_t)) (k : key_type) :
    Option record_t :=
  local_search_str write_set read_set k

/-- C6: `key_in_range(k)` returns true exactly when `a ≤ k` and (the range is
unbounded or `k < b`), i.e. ranges denote half-open intervals `[a, b)` or
`[a, +∞)`; and a bounded range with `a ≥ b` (`is_empty_range` true) contains
no key. -/
theorem key_in_range_spec (r : key_range_t) (k : key_type) :
    (r.key_in_range k = true ↔ (r.a ≤ k ∧ (r.has_b = false ∨ k < r.b)))
    ∧ (r.is_empty_range = true → r.key_in_range k = false) := by
  constructor
  · simp [key_range_t.key_in_range]
  · intro he
    simp only [key_range_t.is_empty_range, Bool.and_eq_true, decide_eq_true_eq] at he
    simp only [key_range_t.key_in_range, he.1, Bool.not_true, Bool.false_or,
      Bool.and_eq_false_iff, decide_eq_false_iff_not, not_le, not_lt]
    rcases le_or_lt r.a k with hak | hak
    · exact Or.inr (le_trans he.2 hak)
    · exact Or.inl hak

/-- C7: the comparator `key_range_search_less_cmp(k, range)` returns true
exactly when the range is unbounded or `k` is strictly below the range's
upper bound `b`; it does not consult the range's lower bound `a`. -/
theorem key_range_search_less_cmp_spec (k : key_type) (range : key_range_t) :
    (key_range_search_less_cmp k range = true ↔
       (range.has_b = false ∨ k < range.b))
    ∧ (∀ a' : key_type,
        key_range_search_less_cmp k ⟨a', range.has_b, range.b⟩ =
          key_range_search_less_cmp k range) := by
  constructor
  · simp [key_range_search_less_cmp]
  · intro a'
    rfl

/-- C10: `contains` soundly decides interval inclusion at the level of keys:
if `r1.contains(r2)` then every key in `r2` is in `r1`. -/
theorem contains_sound (r1 r2 : key_range_t) (k : key_type)
    (hc : r1.contains r2 = true) (hk : r2.key_in_range k = true) :
    r1.key_in_range k = true := by
  unfold key_range_t.contains at hc
  simp only [key_range_t.key_in_range, Bool.and_eq_true, Bool.or_eq_true,
    Bool.not_eq_true', decide_eq_true_eq] at hk ⊢
  by_cases h1 : r2.a < r1.a
  · simp [h1] at hc
  · by_cases h2 : r1.has_b = true
    · by_cases h3 : r2.has_b = true
      · simp only [h1, h2, h3] at hc
        simp only [decide_False, Bool.not_true, Bool.false_eq_true, if_false,
          decide_eq_true_eq] at hc
        refine ⟨le_trans (not_lt.mp h1) hk.1, Or.inr ?_⟩
        rcases hk.2 with h | h
        · exact absurd h3 (by simp [h])
        · exact lt_of_lt_of_le h hc
      · simp [h1, h2, h3] at hc
    · exact ⟨le_trans (not_lt.mp h1) hk.1, Or.inl (by simpa using h2)⟩

/-- Witness for C10 at a concrete instance. -/
theorem contains_sound_witness :
    key_range_t.key_in_range ⟨[1], true, [9]⟩ [2] = true :=
  contains_sound ⟨[1], true, [9]⟩ ⟨[2], true, [3]⟩ [2] (by decide) (by decide)

/-! Section: Version-chain read theorems (C4, C3, C1) -/

/-- C4: a freshly constructed `logical_node` has exactly one retained entry,
with timestamp `MIN_TID = 0` and a null (absent) value; consequently
`record_at(t, …)` on it returns found with `start_t = 0` and a null value for
every `t`, never not-found. -/
theorem fresh_node_spec :
    logical_node.init.size = 1 ∧
    logical_node.init.versions 0 = MIN_TID ∧
    logical_node.init.values 0 = none ∧
    ∀ t : tid_t, logical_node.init.record_at t = some (MIN_TID, none) := by
  refine ⟨by decide, rfl, rfl, ?_⟩
  intro t
  have h1 : logical_node.init.size = 1 := by decide
  simp [logical_node.record_at, h1, logical_node.record_at_scan,
    logical_node.init, MIN_TID]

/-- The descending scan returns not-found exactly when every examined slot is
newer than `t`. -/
theorem record_at_scan_eq_none_iff (vs : Nat → tid_t) (vals : Nat → record_t)
    (t : tid_t) (m : Nat) :
    logical_node.record_at_scan vs vals t m = none ↔ ∀ i, i < m → t < vs i := by
  induction m with
  | zero => simp [logical_node.record_at_scan]
  | succ m ih =>
    unfold logical_node.record_at_scan
    by_cases h : vs m ≤ t
    · rw [if_pos h]
      constructor
      · intro hc
        exact absurd hc (by simp)
      · intro hall
        exact absurd (hall m (Nat.lt_succ_self m)) (not_lt.mpr h)
    · rw [if_neg h, ih]
      constructor
      · intro hall i hi
        have : i < m ∨ i = m := by omega
        rcases this with h' | h'
        · exact hall i h'
        · subst h'
          exact not_le.mp h
      · intro hall i hi
        exact hall i (Nat.lt_succ_of_lt hi)

/-- When the descending scan finds a pair, it is the pair of the newest
examined slot whose timestamp is `≤ t`. -/
theorem record_at_scan_eq_some (vs : Nat → tid_t) (vals : Nat → record_t)
    (t : tid_t) (m : Nat) (p : tid_t × record_t)
    (h : logical_node.record_at_scan vs vals t m = some p) :
    ∃ i, i < m ∧ vs i ≤ t ∧ p = (vs i, vals i) ∧
      ∀ j, i < j → j < m → t < vs j := by
  induction m with
  | zero => simp [logical_node.record_at_scan] at h
  | succ m ih =>
    unfold logical_node.record_at_scan at h
    by_cases hm : vs m ≤ t
    · rw [if_pos hm] at h
      refine ⟨m, Nat.lt_succ_self m, hm, (Option.some_inj.mp h).symm, ?_⟩
      intro j hj hj'
      omega
    · rw [if_neg hm] at h
      obtain ⟨i, hi, hle, hp, hafter⟩ := ih h
      refine ⟨i, Nat.lt_succ_of_lt hi, hle, hp, ?_⟩
      intro j hj hj'
      have : j < m ∨ j = m := by omega
      rcases this with h' | h'
      · exact hafter j hj h'
      · subst h'
        exact not_le.mp hm

/-- C3: on a chain with strictly increasing versions, `record_at(t, …)`
returns found with the retained pair of largest timestamp `≤ t`, and returns
not-found exactly when every retained version is newer than `t`. -/
theorem record_at_spec (node : logical_node) (t : tid_t)
    (hn : 0 < node.size) (h15 : node.size ≤ 15)
    (hs : StrictIncr node.versions node.size) :
    (∀ s r, node.record_at t = some (s, r) →
      ∃ i, i < node.size ∧ s = node.versions i ∧ r = node.values i ∧
        node.versions i ≤ t ∧
        ∀ j, j < node.size → node.versions j ≤ t →
          node.versions j ≤ node.versions i)
    ∧ (node.record_at t = none ↔ ∀ i, i < node.size → t < node.versions i) := by
  constructor
  · intro s r h
    obtain ⟨i, hi, hle, hp, hafter⟩ :=
      record_at_scan_eq_some node.versions node.values t node.size (s, r) h
    have hs1 : s = node.versions i := congrArg Prod.fst hp
    have hr1 : r = node.values i := congrArg Prod.snd hp
    refine ⟨i, hi, hs1, hr1, hle, ?_⟩
    intro j hj hjt
    rcases lt_trichotomy j i with h' | h' | h'
    · exact le_of_lt (hs i hi j h')
    · exact h' ▸ le_refl _
    · exact absurd hjt (not_le.mpr (hafter j h' hj))
  · exact record_at_scan_eq_none_iff node.versions node.values t node.size

/-- Witness for C3 at the freshly constructed node and `t = 7`. -/
theorem record_at_spec_witness :
    (∀ s r, logical_node.init.record_at 7 = some (s, r) →
      ∃ i, i < logical_node.init.size ∧ s = logical_node.init.versions i ∧
        r = logical_node.init.values i ∧ logical_node.init.versions i ≤ 7 ∧
        ∀ j, j < logical_node.init.size → logical_node.init.versions j ≤ 7 →
          logical_node.init.versions j ≤ logical_node.init.versions i)
    ∧ (logical_node.init.record_at 7 = none ↔
        ∀ i, i < logical_node.init.size → 7 < logical_node.init.versions i) :=
  record_at_spec logical_node.init 7 (by decide) (by decide) (by decide)

/-- If each slot examined by the slow-path scan is newer than the snapshot,
the scan reports inconsistent. -/
theorem snapshot_scan_eq_false (vs : Nat → tid_t) (snap commit : tid_t)
    (m : Nat) (h : ∀ i, i < m → snap < vs i) :
    logical_node.snapshot_scan vs snap commit m = false := by
  induction m with
  | zero => rfl
  | succ m ih =>
    unfold logical_node.snapshot_scan
    rw [if_neg (not_le.mpr (h m (Nat.lt_succ_self m)))]
    exact ih (fun i hi => h i (Nat.lt_succ_of_lt hi))

/-- The slow-path scan stops at the newest examined slot `≤ snap` and compares
the next slot's timestamp with the commit timestamp. -/
theorem snapshot_scan_eq_at (vs : Nat → tid_t) (snap commit : tid_t)
    (m i : Nat) (hi : i < m) (hvi : vs i ≤ snap)
    (hafter : ∀ j, i < j → j < m → snap < vs j) :
    logical_node.snapshot_scan vs snap commit m =
      decide (commit < vs (i + 1)) := by
  induction m with
  | zero => omega
  | succ m ih =>
    unfold logical_node.snapshot_scan
    by_cases hm : vs m ≤ snap
    · rw [if_pos hm]
      have him : i = m := by
        by_contra hne
        have hlt : i < m := by omega
        exact absurd hm (not_le.mpr (hafter m hlt (Nat.lt_succ_self m)))
      subst him
      rfl
    · rw [if_neg hm]
      have him : i ≠ m := fun h => hm (h ▸ hvi)
      exact ih (by omega) (fun j hj hj' => hafter j hj (Nat.lt_succ_of_lt hj'))

/-- C1: on a chain with strictly increasing versions,
`is_snapshot_consistent(snapshot_tid, commit_tid)` returns true if the newest
retained version is `≤ snapshot_tid`; otherwise, at the retained index `i`
active at `snapshot_tid` it returns true iff `versions[i+1] > commit_tid`; and
if no retained version is `≤ snapshot_tid` it returns false. -/
theorem is_snapshot_consistent_spec (node : logical_node)
    (snapshot_tid commit_tid : tid_t)
    (hn : 0 < node.size) (h15 : node.size ≤ 15)
    (hs : StrictIncr node.versions node.size) :
    (node.versions (node.size - 1) ≤ snapshot_tid →
      node.is_snapshot_consistent snapshot_tid commit_tid = true)
    ∧ (snapshot_tid < node.versions (node.size - 1) →
        (∀ i, i + 1 < node.size → node.versions i ≤ snapshot_tid →
            snapshot_tid < node.versions (i + 1) →
            (node.is_snapshot_consistent snapshot_tid commit_tid = true ↔
              commit_tid < node.versions (i + 1)))
        ∧ ((∀ i, i < node.size → snapshot_tid < node.versions i) →
            node.is_snapshot_consistent snapshot_tid commit_tid = false)) := by
  constructor
  · intro h
    unfold logical_node.is_snapshot_consistent
    rw [if_pos h]
  · intro hfast
    constructor
    · intro i hi hvi hnext
      unfold logical_node.is_snapshot_consistent
      rw [if_neg (not_le.mpr hfast)]
      have hafter : ∀ j, i < j → j < node.size - 1 → snapshot_tid < node.versions j := by
        intro j hj hj'
        have : i + 1 = j ∨ i + 1 < j := by omega
        rcases this with h' | h'
        · rw [← h']
          exact hnext
        · exact lt_trans hnext (hs j (by omega) (i + 1) h')
      rw [snapshot_scan_eq_at node.versions snapshot_tid commit_tid
        (node.size - 1) i (by omega) hvi hafter]
      simp
    · intro hall
      unfold logical_node.is_snapshot_consistent
      rw [if_neg (not_le.mpr hfast)]
      exact snapshot_scan_eq_false _ _ _ _ (fun i hi => hall i (by omega))

/-- Witness for C1 at the freshly constructed node with
`snapshot_tid = 0`, `commit_tid = 5`. -/
theorem is_snapshot_consistent_spec_witness :
    (logical_node.init.versions (logical_node.init.size - 1) ≤ 0 →
      logical_node.init.is_snapshot_consistent 0 5 = true)
    ∧ (0 < logical_node.init.versions (logical_node.init.size - 1) →
        (∀ i, i + 1 < logical_node.init.size →
            logical_node.init.versions i ≤ 0 →
            0 < logical_node.init.versions (i + 1) →
            (logical_node.init.is_snapshot_consistent 0 5 = true ↔
              5 < logical_node.init.versions (i + 1)))
        ∧ ((∀ i, i < logical_node.init.size →
              0 < logical_node.init.versions i) →
            logical_node.init.is_snapshot_consistent 0 5 = false)) :=
  is_snapshot_consistent_spec logical_node.init 0 5 (by decide) (by decide)
    (by decide)

/-! Section: Header-word bit lemmas (toolkit for C9 and C2) -/

/-- The bits of a contiguous mask `(2^w - 1) <<< s`. -/
theorem testBit_mask (w s i : Nat) :
    Nat.testBit ((2 ^ w - 1) <<< s) i = (decide (s ≤ i) && decide (i < s + w)) := by
  simp only [Nat.testBit_shiftLeft, Nat.testBit_two_pow_sub_one, ge_iff_le]
  by_cases h : s ≤ i
  · simp only [h, decide_True, Bool.true_and]
    rw [decide_eq_decide]
    omega
  · simp only [h, decide_False, Bool.false_and]

/-- The bits of `HDR_SIZE_MASK = 0x1e` (bits 1–4). -/
theorem testBit_size_mask (i : Nat) :
    Nat.testBit logical_node.HDR_SIZE_MASK i =
      (decide (1 ≤ i) && decide (i < 5)) := by
  have h : logical_node.HDR_SIZE_MASK = (2 ^ 4 - 1) <<< 1 := by decide
  rw [h, testBit_mask]

/-- The bits of `HDR_VERSION_MASK = 2^64 - 32` (bits 5–63). -/
theorem testBit_version_mask (i : Nat) :
    Nat.testBit logical_node.HDR_VERSION_MASK i =
      (decide (5 ≤ i) && decide (i < 64)) := by
  have h : logical_node.HDR_VERSION_MASK = (2 ^ 59 - 1) <<< 5 := by decide
  rw [h, testBit_mask]

/-- The bits of `~HDR_VERSION_MASK = 31` (bits 0–4). -/
theorem testBit_compl_version_mask (i : Nat) :
    Nat.testBit (logical_node.compl64 logical_node.HDR_VERSION_MASK) i =
      decide (i < 5) := by
  have h : logical_node.compl64 logical_node.HDR_VERSION_MASK = 2 ^ 5 - 1 := by
    decide
  rw [h, Nat.testBit_two_pow_sub_one]

/-- The bits of `~HDR_LOCKED_MASK = 2^64 - 2` (bits 1–63). -/
theorem testBit_compl_locked_mask (i : Nat) :
    Nat.testBit (logical_node.compl64 logical_node.HDR_LOCKED_MASK) i =
      (decide (1 ≤ i) && decide (i < 64)) := by
  have h : logical_node.compl64 logical_node.HDR_LOCKED_MASK =
      (2 ^ 63 - 1) <<< 1 := by decide
  rw [h, testBit_mask]

/-- The bits of `~HDR_SIZE_MASK` (bit 0 and bits 5–63). -/
theorem testBit_compl_size_mask (i : Nat) :
    Nat.testBit (logical_node.compl64 logical_node.HDR_SIZE_MASK) i =
      (decide (i < 64) && (decide (i = 0) || decide (5 ≤ i))) := by
  have h : logical_node.compl64 logical_node.HDR_SIZE_MASK =
      ((2 ^ 1 - 1) <<< 0) ||| ((2 ^ 59 - 1) <<< 5) := by decide
  rw [h]
  simp only [Nat.testBit_or, testBit_mask]
  apply Bool.coe_iff_coe.mp
  simp only [Bool.or_eq_true, Bool.and_eq_true, decide_eq_true_eq]
  omega

/-- Lemma: `set_size` installs exactly the requested count in the size field. -/
theorem Size_set_size (v n : Nat) (hn : n < 16) :
    logical_node.Size (logical_node.set_size v n) = n := by
  unfold logical_node.Size logical_node.set_size logical_node.HDR_SIZE_SHIFT
  apply Nat.eq_of_testBit_eq
  intro i
  simp only [Nat.testBit_shiftRight, Nat.testBit_and, Nat.testBit_or,
    Nat.testBit_shiftLeft, testBit_size_mask, testBit_compl_size_mask,
    ge_iff_le]
  by_cases h4 : i < 4
  · have e1 : (1 : Nat) + i - 1 = i := by omega
    have e2 : decide (1 ≤ 1 + i) = true := by
      simp
    have e3 : decide (1 + i < 5) = true := by
      rw [decide_eq_true_eq]
      omega
    have e4 : (decide (1 + i = 0) || decide (5 ≤ 1 + i)) = false := by
      simp only [Bool.or_eq_false_iff, decide_eq_false_iff_not]
      omega
    simp only [e1, e2, e3, e4, Bool.and_false, Bool.false_or, Bool.and_true,
      Bool.true_and]
  · have e3 : decide (1 + i < 5) = false := by
      rw [decide_eq_false_iff_not]
      omega
    have hpow : (16 : Nat) ≤ 2 ^ i := by
      have h24 : (2 : Nat) ^ 4 ≤ 2 ^ i := Nat.pow_le_pow_right (by norm_num) (by omega)
      norm_num at h24
      exact h24
    have e5 : Nat.testBit n i = false :=
      Nat.testBit_lt_two_pow (lt_of_lt_of_le hn hpow)
    simp [e3, e5]

/-- The per-bit description of the word computed by `unlock()`. -/
theorem testBit_unlock_word (v i : Nat) :
    Nat.testBit (logical_node.unlock_word v) i =
      if i = 0 then false
      else if i < 5 then Nat.testBit v i
      else if i < 64 then Nat.testBit (logical_node.Version v + 1) (i - 5)
      else false := by
  unfold logical_node.unlock_word logical_node.HDR_VERSION_SHIFT
  simp only [Nat.testBit_and, Nat.testBit_or, Nat.testBit_mod_two_pow,
    Nat.testBit_shiftLeft, testBit_version_mask, testBit_compl_version_mask,
    testBit_compl_locked_mask, ge_iff_le]
  by_cases h0 : i = 0
  · subst h0
    simp
  · by_cases h5 : i < 5
    · rw [if_neg h0, if_pos h5]
      have e1 : decide (i < 5) = true := by
        rw [decide_eq_true_eq]
        exact h5
      have e2 : decide (5 ≤ i) = false := by
        rw [decide_eq_false_iff_not]
        omega
      have e3 : decide (1 ≤ i) = true := by
        rw [decide_eq_true_eq]
        omega
      have e4 : decide (i < 64) = true := by
        rw [decide_eq_true_eq]
        omega
      simp [e1, e2, e3, e4]
    · rw [if_neg h0, if_neg h5]
      by_cases h64 : i < 64
      · rw [if_pos h64]
        have e1 : decide (i < 5) = false := by
          rw [decide_eq_false_iff_not]
          omega
        have e2 : decide (5 ≤ i) = true := by
          rw [decide_eq_true_eq]
          omega
        have e3 : decide (1 ≤ i) = true := by
          rw [decide_eq_true_eq]
          omega
        have e4 : decide (i < 64) = true := by
          rw [decide_eq_true_eq]
          exact h64
        simp [e1, e2, e3, e4]
      · rw [if_neg h64]
        have e4 : decide (i < 64) = false := by
          rw [decide_eq_false_iff_not]
          exact h64
        simp [e4]

/-- Lemma: `unlock` clears the locked bit. -/
theorem IsLocked_unlock_word (v : Nat) :
    logical_node.IsLocked (logical_node.unlock_word v) = false := by
  unfold logical_node.IsLocked logical_node.HDR_LOCKED_MASK
  have h : logical_node.unlock_word v &&& 1 = 0 := by
    apply Nat.eq_of_testBit_eq
    intro i
    simp only [Nat.testBit_and, Nat.zero_testBit]
    by_cases h0 : i = 0
    · subst h0
      rw [testBit_unlock_word]
      simp
    · have h1 : Nat.testBit 1 i = false :=
        Nat.testBit_lt_two_pow (Nat.one_lt_two_pow (by omega))
      simp [h1]
  rw [h]
  simp

/-- Lemma: `unlock` leaves the size field unchanged. -/
theorem Size_unlock_word (v : Nat) :
    logical_node.Size (logical_node.unlock_word v) = logical_node.Size v := by
  unfold logical_node.Size
  apply Nat.eq_of_testBit_eq
  intro i
  simp only [Nat.testBit_shiftRight, Nat.testBit_and, testBit_size_mask]
  rw [testBit_unlock_word]
  unfold logical_node.HDR_SIZE_SHIFT
  have h0 : (1 : Nat) + i ≠ 0 := by omega
  rw [if_neg h0]
  by_cases h5 : 1 + i < 5
  · rw [if_pos h5]
  · rw [if_neg h5]
    have e1 : decide (1 + i < 5) = false := by
      rw [decide_eq_false_iff_not]
      exact h5
    by_cases h64 : 1 + i < 64
    · rw [if_pos h64]
      simp [e1]
    · rw [if_neg h64]
      simp [e1]

/-- Lemma: `unlock` increments the stamp field modulo `2^59`. -/
theorem Version_unlock_word (v : Nat) :
    logical_node.Version (logical_node.unlock_word v) =
      (logical_node.Version v + 1) % 2 ^ 59 := by
  conv_lhs => unfold logical_node.Version
  apply Nat.eq_of_testBit_eq
  intro i
  simp only [Nat.testBit_shiftRight, Nat.testBit_and, testBit_version_mask,
    Nat.testBit_mod_two_pow]
  rw [testBit_unlock_word]
  unfold logical_node.HDR_VERSION_SHIFT
  have h0 : (5 : Nat) + i ≠ 0 := by omega
  have h5 : ¬ (5 + i < 5) := by omega
  rw [if_neg h0, if_neg h5]
  have e2 : decide (5 ≤ 5 + i) = true := by
    simp
  by_cases h64 : 5 + i < 64
  · rw [if_pos h64]
    have e1 : decide (5 + i < 64) = true := by
      rw [decide_eq_true_eq]
      exact h64
    have e3 : decide (i < 59) = true := by
      rw [decide_eq_true_eq]
      omega
    have e4 : (5 : Nat) + i - 5 = i := by omega
    simp [e1, e2, e3, e4]
  · rw [if_neg h64]
    have e1 : decide (5 + i < 64) = false := by
      rw [decide_eq_false_iff_not]
      exact h64
    have e3 : decide (i < 59) = false := by
      rw [decide_eq_false_iff_not]
      omega
    simp [e1, e3]

/-- C9: on a locked header word, `unlock()` clears the locked bit, increments
the stamp field modulo `2^59`, and leaves the count field unchanged; on an
unlocked header word it is an invariant violation (modelled as `none`). -/
theorem unlock_spec (v : Nat) (hv : v < 2 ^ 64) :
    (logical_node.IsLocked v = true →
      ∃ w, logical_node.unlock v = some w ∧
        logical_node.IsLocked w = false ∧
        logical_node.Version w = (logical_node.Version v + 1) % 2 ^ 59 ∧
        logical_node.Size w = logical_node.Size v)
    ∧ (logical_node.IsLocked v = false → logical_node.unlock v = none) := by
  constructor
  · intro h
    refine ⟨logical_node.unlock_word v, ?_, IsLocked_unlock_word v,
      Version_unlock_word v, Size_unlock_word v⟩
    unfold logical_node.unlock
    rw [h]
    simp
  · intro h
    unfold logical_node.unlock
    rw [h]
    simp

/-- Witness for C9 at the locked header word `v = 1`. -/
theorem unlock_spec_witness :
    (logical_node.IsLocked 1 = true →
      ∃ w, logical_node.unlock 1 = some w ∧
        logical_node.IsLocked w = false ∧
        logical_node.Version w = (logical_node.Version 1 + 1) % 2 ^ 59 ∧
        logical_node.Size w = logical_node.Size 1)
    ∧ (logical_node.IsLocked 1 = false → logical_node.unlock 1 = none) :=
  unlock_spec 1 (by norm_num)

/-- Every retained version is older than a timestamp newer than the newest
retained version. -/
theorem versions_lt_of_newest_lt (node : logical_node) (t : tid_t)
    (hn : 0 < node.size) (hs : StrictIncr node.versions node.size)
    (ht : node.versions (node.size - 1) < t) :
    ∀ i, i < node.size → node.versions i < t := by
  intro i hi
  have : i = node.size - 1 ∨ i < node.size - 1 := by omega
  rcases this with h | h
  · exact h ▸ ht
  · exact lt_trans (hs (node.size - 1) (by omega) i h) ht

/-- C2: with the lock-holder's precondition (`t` strictly newer than every
retained version), `write_record_at(t, r)` appends `(t, r)`: below capacity
the pair goes in slot `count` and the count grows by one; at capacity the
oldest slot is dropped by shifting every slot down one and the pair goes in
slot 14 with the count staying 15 (slot 0 then holds the second-oldest
pre-call entry); in both cases `versions` stays strictly increasing. -/
theorem write_record_at_spec (node : logical_node) (t : tid_t) (r : record_t)
    (hn : 0 < node.size) (h15 : node.size ≤ 15)
    (hs : StrictIncr node.versions node.size)
    (ht : node.versions (node.size - 1) < t) :
    (node.size < 15 →
      (node.write_record_at t r).size = node.size + 1 ∧
      (node.write_record_at t r).versions node.size = t ∧
      (node.write_record_at t r).values node.size = r ∧
      ∀ i, i < node.size →
        (node.write_record_at t r).versions i = node.versions i ∧
        (node.write_record_at t r).values i = node.values i)
    ∧ (node.size = 15 →
      (node.write_record_at t r).size = 15 ∧
      (node.write_record_at t r).versions 14 = t ∧
      (node.write_record_at t r).values 14 = r ∧
      (node.write_record_at t r).versions 0 = node.versions 1 ∧
      (node.write_record_at t r).values 0 = node.values 1 ∧
      ∀ i, i < 14 →
        (node.write_record_at t r).versions i = node.versions (i + 1) ∧
        (node.write_record_at t r).values i = node.values (i + 1))
    ∧ StrictIncr (node.write_record_at t r).versions
        (node.write_record_at t r).size := by
  have hvt := versions_lt_of_newest_lt node t hn hs ht
  by_cases hfull : node.size = 15
  · have hw : node.write_record_at t r =
        { node with
          versions := fun i =>
            if i < 14 then node.versions (i + 1)
            else if i = 14 then t
            else node.versions i,
          values := fun i =>
            if i < 14 then node.values (i + 1)
            else if i = 14 then r
            else node.values i } := by
      simp [logical_node.write_record_at, logical_node.NVersions, hfull]
    have hsize : (node.write_record_at t r).size = 15 := by
      rw [hw]
      show logical_node.Size node.hdr = 15
      exact hfull
    refine ⟨fun h => absurd hfull (by omega), ?_, ?_⟩
    · intro _
      refine ⟨hsize, ?_, ?_, ?_, ?_, ?_⟩
      · rw [hw]
        simp
      · rw [hw]
        simp
      · rw [hw]
        simp
      · rw [hw]
        simp
      · intro i hi
        rw [hw]
        simp [hi]
    · rw [hsize, hw]
      intro j hj i hij
      simp only
      by_cases hj14 : j < 14
      · rw [if_pos hj14, if_pos (by omega : i < 14)]
        exact hs (j + 1) (by omega) (i + 1) (by omega)
      · have hj' : j = 14 := by omega
        subst hj'
        rw [if_neg (by omega : ¬ (14:Nat) < 14), if_pos rfl,
          if_pos (by omega : i < 14)]
        exact hvt (i + 1) (by omega)
  · have hw : node.write_record_at t r =
        { node with
          hdr := logical_node.set_size node.hdr (node.size + 1),
          versions := fun i => if i = node.size then t else node.versions i,
          values := fun i => if i = node.size then r else node.values i } := by
      simp [logical_node.write_record_at, logical_node.NVersions, hfull]
    have hsize : (node.write_record_at t r).size = node.size + 1 := by
      rw [hw]
      show logical_node.Size (logical_node.set_size node.hdr (node.size + 1)) =
        node.size + 1
      exact Size_set_size node.hdr (node.size + 1) (by omega)
    refine ⟨?_, fun h => absurd h hfull, ?_⟩
    · intro _
      refine ⟨hsize, ?_, ?_, ?_⟩
      · rw [hw]
        simp
      · rw [hw]
        simp
      · intro i hi
        rw [hw]
        simp [Nat.ne_of_lt hi]
    · rw [hsize, hw]
      intro j hj i hij
      simp only
      by_cases hjn : j = node.size
      · subst hjn
        rw [if_pos rfl, if_neg (by omega : ¬ i = node.size)]
        exact hvt i (by omega)
      · rw [if_neg hjn, if_neg (by omega : ¬ i = node.size)]
        exact hs j (by omega) i hij

/-- Witness for C2 at the freshly constructed node, `t = 3`. -/
theorem write_record_at_spec_witness :
    (logical_node.init.size < 15 →
      (logical_node.init.write_record_at 3 (some 9)).size =
          logical_node.init.size + 1 ∧
      (logical_node.init.write_record_at 3 (some 9)).versions
          logical_node.init.size = 3 ∧
      (logical_node.init.write_record_at 3 (some 9)).values
          logical_node.init.size = some 9 ∧
      ∀ i, i < logical_node.init.size →
        (logical_node.init.write_record_at 3 (some 9)).versions i =
            logical_node.init.versions i ∧
        (logical_node.init.write_record_at 3 (some 9)).values i =
            logical_node.init.values i)
    ∧ (logical_node.init.size = 15 →
      (logical_node.init.write_record_at 3 (some 9)).size = 15 ∧
      (logical_node.init.write_record_at 3 (some 9)).versions 14 = 3 ∧
      (logical_node.init.write_record_at 3 (some 9)).values 14 = some 9 ∧
      (logical_node.init.write_record_at 3 (some 9)).versions 0 =
          logical_node.init.versions 1 ∧
      (logical_node.init.write_record_at 3 (some 9)).values 0 =
          logical_node.init.values 1 ∧
      ∀ i, i < 14 →
        (logical_node.init.write_record_at 3 (some 9)).versions i =
            logical_node.init.versions (i + 1) ∧
        (logical_node.init.write_record_at 3 (some 9)).values i =
            logical_node.init.values (i + 1))
    ∧ StrictIncr (logical_node.init.write_record_at 3 (some 9)).versions
        (logical_node.init.write_record_at 3 (some 9)).size :=
  write_record_at_spec logical_node.init 3 (some 9) (by decide) (by decide)
    (by decide) (by decide)

/-! Section: Absent-range-set theorems (C5) -/

/-- Prop-level reading of `key_in_range`. -/
theorem key_in_range_iff (r : key_range_t) (k : key_type) :
    r.key_in_range k = true ↔ (r.a ≤ k ∧ (r.has_b = false ∨ k < r.b)) := by
  simp [key_range_t.key_in_range]

/-- An empty range contains no key. -/
theorem key_in_range_of_empty (r : key_range_t) (k : key_type)
    (he : r.is_empty_range = true) : r.key_in_range k = false := by
  simp only [key_range_t.is_empty_range, Bool.and_eq_true, decide_eq_true_eq]
    at he
  simp only [key_range_t.key_in_range, he.1, Bool.not_true, Bool.false_or,
    Bool.and_eq_false_iff, decide_eq_false_iff_not, not_le, not_lt]
  rcases le_or_lt r.a k with hak | hak
  · exact Or.inr (le_trans he.2 hak)
  · exact Or.inl hak

/-- Prop-level reading of non-emptiness. -/
theorem not_empty_iff (r : key_range_t) :
    r.is_empty_range = false ↔ (r.has_b = true → r.a < r.b) := by
  simp only [key_range_t.is_empty_range, Bool.and_eq_false_iff,
    decide_eq_false_iff_not, not_le]
  constructor
  · intro h hb
    rcases h with h | h
    · exact absurd hb (by simp [h])
    · exact h
  · intro h
    cases hb : r.has_b
    · exact Or.inl rfl
    · exact Or.inr (h hb)

/-- Prop-level reading of `range_strictly_before … = false`. -/
theorem strictly_before_eq_false_iff (x y : key_range_t) :
    range_strictly_before x y = false ↔ (x.has_b = true → y.a ≤ x.b) := by
  simp only [range_strictly_before, Bool.and_eq_false_iff,
    decide_eq_false_iff_not, not_lt]
  constructor
  · intro h hb
    rcases h with h | h
    · exact absurd hb (by simp [h])
    · exact h
  · intro h
    cases hb : x.has_b
    · exact Or.inl rfl
    · exact Or.inr (h hb)

/-- Prop-level reading of `range_strictly_before … = true`. -/
theorem strictly_before_eq_true_iff (x y : key_range_t) :
    range_strictly_before x y = true ↔ (x.has_b = true ∧ x.b < y.a) := by
  simp [range_strictly_before]

/-- The union of two ranges, neither strictly below the other, covers exactly
the keys of the two ranges. -/
theorem key_in_union_iff (r x : key_range_t) (k : key_type)
    (hxr : range_strictly_before x r = false)
    (hrx : range_strictly_before r x = false) :
    (range_union r x).key_in_range k =
      (r.key_in_range k || x.key_in_range k) := by
  have hxr' := (strictly_before_eq_false_iff x r).mp hxr
  have hrx' := (strictly_before_eq_false_iff r x).mp hrx
  apply Bool.coe_iff_coe.mp
  simp only [Bool.or_eq_true, key_in_range_iff, range_union,
    Bool.and_eq_false_iff]
  constructor
  · rintro ⟨hak, hbk⟩
    have hmin : r.a ≤ k ∨ x.a ≤ k := min_le_iff.mp hak
    rcases hbk with (hb1 | hb2) | hmax
    · -- r unbounded
      rcases le_or_lt r.a k with h | h
      · exact Or.inl ⟨h, Or.inl hb1⟩
      · have hA2 : x.a ≤ k := by
          rcases hmin with h' | h'
          · exact absurd h' (not_le.mpr h)
          · exact h'
        refine Or.inr ⟨hA2, ?_⟩
        cases hxb : x.has_b
        · exact Or.inl rfl
        · exact Or.inr (lt_of_lt_of_le h (hxr' hxb))
    · -- x unbounded
      rcases le_or_lt x.a k with h | h
      · exact Or.inr ⟨h, Or.inl hb2⟩
      · have hA1 : r.a ≤ k := by
          rcases hmin with h' | h'
          · exact h'
          · exact absurd h' (not_le.mpr h)
        refine Or.inl ⟨hA1, ?_⟩
        cases hrb : r.has_b
        · exact Or.inl rfl
        · exact Or.inr (lt_of_lt_of_le h (hrx' hrb))
    · -- k below the max upper bound
      rcases lt_max_iff.mp hmax with hkb | hkb
      · rcases le_or_lt r.a k with h | h
        · exact Or.inl ⟨h, Or.inr hkb⟩
        · have hA2 : x.a ≤ k := by
            rcases hmin with h' | h'
            · exact absurd h' (not_le.mpr h)
            · exact h'
          refine Or.inr ⟨hA2, ?_⟩
          cases hxb : x.has_b
          · exact Or.inl rfl
          · exact Or.inr (lt_of_lt_of_le h (hxr' hxb))
      · rcases le_or_lt x.a k with h | h
        · exact Or.inr ⟨h, Or.inr hkb⟩
        · have hA1 : r.a ≤ k := by
            rcases hmin with h' | h'
            · exact h'
            · exact absurd h' (not_le.mpr h)
          refine Or.inl ⟨hA1, ?_⟩
          cases hrb : r.has_b
          · exact Or.inl rfl
          · exact Or.inr (lt_of_lt_of_le h (hrx' hrb))
  · rintro (⟨hak, hbk⟩ | ⟨hak, hbk⟩)
    · refine ⟨le_trans (min_le_left _ _) hak, ?_⟩
      rcases hbk with h | h
      · exact Or.inl (Or.inl h)
      · exact Or.inr (lt_of_lt_of_le h (le_max_left _ _))
    · refine ⟨le_trans (min_le_right _ _) hak, ?_⟩
      rcases hbk with h | h
      · exact Or.inl (Or.inr h)
      · exact Or.inr (lt_of_lt_of_le h (le_max_right _ _))

/-- The union of two non-empty ranges is non-empty. -/
theorem range_union_not_empty (r x : key_range_t)
    (hr : r.is_empty_range = false) (hx : x.is_empty_range = false) :
    (range_union r x).is_empty_range = false := by
  rw [not_empty_iff] at hr hx ⊢
  intro hb
  simp only [range_union] at hb ⊢
  rw [Bool.and_eq_true] at hb
  calc min r.a x.a ≤ r.a := min_le_left _ _
    _ < r.b := hr hb.1
    _ ≤ max r.b x.b := le_max_left _ _

/-- Every range produced by the merging insert starts at or above any common
lower bound of the inserted range and the existing set. -/
theorem insert_range_lb (r : key_range_t) (s : List key_range_t)
    (c : key_type) (hc : c ≤ r.a) (hs : ∀ x ∈ s, c ≤ x.a) :
    ∀ y ∈ insert_range r s, c ≤ y.a := by
  induction s generalizing r with
  | nil =>
    intro y hy
    simp only [insert_range, List.mem_singleton] at hy
    exact hy ▸ hc
  | cons x xs ih =>
    intro y hy
    unfold insert_range at hy
    by_cases h1 : range_strictly_before x r = true
    · rw [if_pos h1] at hy
      rcases List.mem_cons.mp hy with h | h
      · exact h ▸ hs x (List.mem_cons_self x xs)
      · exact ih r hc (fun z hz => hs z (List.mem_cons_of_mem x hz)) y h
    · rw [if_neg h1] at hy
      by_cases h2 : range_strictly_before r x = true
      · rw [if_pos h2] at hy
        rcases List.mem_cons.mp hy with h | h
        · exact h ▸ hc
        · rcases List.mem_cons.mp h with h' | h'
          · exact h' ▸ hs x (List.mem_cons_self x xs)
          · exact hs y (List.mem_cons_of_mem x h')
      · rw [if_neg h2] at hy
        refine ih (range_union r x) ?_
          (fun z hz => hs z (List.mem_cons_of_mem x hz)) y hy
        simp only [range_union]
        exact le_min hc (hs x (List.mem_cons_self x xs))

/-- The merging insert of a non-empty range preserves the range-set
invariant. -/
theorem insert_range_valid (r : key_range_t) (s : List key_range_t)
    (hr : r.is_empty_range = false) (hv : ValidRangeSet s) :
    ValidRangeSet (insert_range r s) := by
  induction s generalizing r with
  | nil =>
    refine ⟨?_, ?_⟩
    · intro y hy
      simp only [insert_range, List.mem_singleton] at hy
      exact hy ▸ hr
    · simp [insert_range]
  | cons x xs ih =>
    obtain ⟨hne, hp⟩ := hv
    have hpx : ∀ y ∈ xs, RangeBefore x y := (List.pairwise_cons.mp hp).1
    have hpxs : List.Pairwise RangeBefore xs := (List.pairwise_cons.mp hp).2
    have hvxs : ValidRangeSet xs :=
      ⟨fun y hy => hne y (List.mem_cons_of_mem x hy), hpxs⟩
    unfold insert_range
    by_cases h1 : range_strictly_before x r = true
    · rw [if_pos h1]
      obtain ⟨hxb, hxbr⟩ := (strictly_before_eq_true_iff x r).mp h1
      obtain ⟨ihne, ihp⟩ := ih r hr hvxs
      refine ⟨?_, ?_⟩
      · intro y hy
        rcases List.mem_cons.mp hy with h | h
        · exact h ▸ hne x (List.mem_cons_self x xs)
        · exact ihne y h
      · refine List.pairwise_cons.mpr ⟨?_, ihp⟩
        intro y hy
        exact ⟨hxb, insert_range_lb r xs x.b (le_of_lt hxbr)
          (fun z hz => (hpx z hz).2) y hy⟩
    · rw [if_neg h1]
      by_cases h2 : range_strictly_before r x = true
      · rw [if_pos h2]
        obtain ⟨hrb, hrbx⟩ := (strictly_before_eq_true_iff r x).mp h2
        refine ⟨?_, ?_⟩
        · intro y hy
          rcases List.mem_cons.mp hy with h | h
          · exact h ▸ hr
          · exact hne y h
        · refine List.pairwise_cons.mpr ⟨?_, hp⟩
          intro y hy
          rcases List.mem_cons.mp hy with h | h
          · exact ⟨hrb, h ▸ le_of_lt hrbx⟩
          · have hxy := hpx y h
            have hxab : x.a < x.b :=
              (not_empty_iff x).mp (hne x (List.mem_cons_self x xs)) hxy.1
            exact ⟨hrb, le_of_lt (lt_of_lt_of_le (lt_trans hrbx hxab) hxy.2)⟩
      · rw [if_neg h2]
        exact ih (range_union r x)
          (range_union_not_empty r x hr (hne x (List.mem_cons_self x xs)))
          hvxs

/-- Unfolding of `key_in_ranges` over a cons. -/
theorem key_in_ranges_cons (x : key_range_t) (l : List key_range_t)
    (k : key_type) :
    key_in_ranges (x :: l) k = (x.key_in_range k || key_in_ranges l k) := rfl

/-- The merging insert adds exactly the keys of the inserted range. -/
theorem key_in_insert_range (r : key_range_t) (s : List key_range_t)
    (k : key_type) (hv : ValidRangeSet s) :
    key_in_ranges (insert_range r s) k =
      (r.key_in_range k || key_in_ranges s k) := by
  induction s generalizing r with
  | nil => simp [insert_range, key_in_ranges]
  | cons x xs ih =>
    obtain ⟨hne, hp⟩ := hv
    have hvxs : ValidRangeSet xs :=
      ⟨fun y hy => hne y (List.mem_cons_of_mem x hy),
        (List.pairwise_cons.mp hp).2⟩
    unfold insert_range
    by_cases h1 : range_strictly_before x r = true
    · rw [if_pos h1]
      show key_in_ranges (x :: insert_range r xs) k = _
      rw [key_in_ranges_cons, ih r hvxs, key_in_ranges_cons]
      cases r.key_in_range k <;> cases x.key_in_range k <;>
        cases key_in_ranges xs k <;> rfl
    · rw [if_neg h1]
      by_cases h2 : range_strictly_before r x = true
      · rw [if_pos h2]
        rfl
      · rw [if_neg h2]
        rw [ih (range_union r x) hvxs]
        rw [key_in_union_iff r x k (Bool.not_eq_true _ ▸ h1)
          (Bool.not_eq_true _ ▸ h2), key_in_ranges_cons]
        cases r.key_in_range k <;> cases x.key_in_range k <;>
          cases key_in_ranges xs k <;> rfl

/-- On a valid range set, the `upper_bound()`-style lookup agrees with linear
membership in the union of the stored ranges. -/
theorem key_in_absent_set_eq (s : List key_range_t) (k : key_type)
    (hv : ValidRangeSet s) :
    key_in_absent_set s k = key_in_ranges s k := by
  induction s with
  | nil => rfl
  | cons x xs ih =>
    obtain ⟨hne, hp⟩ := hv
    have hpx : ∀ y ∈ xs, RangeBefore x y := (List.pairwise_cons.mp hp).1
    have hvxs : ValidRangeSet xs :=
      ⟨fun y hy => hne y (List.mem_cons_of_mem x hy),
        (List.pairwise_cons.mp hp).2⟩
    by_cases hc : key_range_search_less_cmp k x = true
    · have hfind : (x :: xs).find?
          (fun range => key_range_search_less_cmp k range) = some x :=
        List.find?_cons_of_pos _ hc
      unfold key_in_absent_set
      rw [hfind]
      show x.key_in_range k = key_in_ranges (x :: xs) k
      rw [key_in_ranges, List.any_cons]
      rcases xs with _ | ⟨z, zs⟩
      · simp [key_in_ranges]
      · have hxb : x.has_b = true := (hpx z (List.mem_cons_self z zs)).1
        have hkb : k < x.b := by
          have hc' : x.has_b = false ∨ k < x.b := by
            simpa [key_range_search_less_cmp] using hc
          rcases hc' with h | h
          · exact absurd hxb (by simp [h])
          · exact h
        have hall : key_in_ranges (z :: zs) k = false := by
          rw [key_in_ranges, List.any_eq_false]
          intro y hy
          have hxy := hpx y hy
          have hya : k < y.a := lt_of_lt_of_le hkb hxy.2
          simp [key_range_t.key_in_range, not_le.mpr hya]
        rw [show key_in_ranges (z :: zs) k =
            (z :: zs).any (fun range => range.key_in_range k) from rfl] at hall
        rw [hall, Bool.or_false]
    · have hfind : (x :: xs).find?
          (fun range => key_range_search_less_cmp k range) =
          xs.find? (fun range => key_range_search_less_cmp k range) :=
        List.find?_cons_of_neg _ (by simpa using hc)
      have hxk : x.key_in_range k = false := by
        have hc' : x.has_b = true ∧ x.b ≤ k := by
          simpa [key_range_search_less_cmp, not_lt] using hc
        simp [key_range_t.key_in_range, hc'.1, not_lt.mpr hc'.2]
      unfold key_in_absent_set
      rw [hfind]
      show _ = key_in_ranges (x :: xs) k
      rw [key_in_ranges, List.any_cons, hxk, Bool.false_or]
      exact ih hvxs

/-- Folding `add_absent_range` over a list of input ranges preserves the
invariant and accumulates exactly the keys of the inputs. -/
theorem foldl_add_absent_range (rs : List key_range_t)
    (s : List key_range_t) (hv : ValidRangeSet s) :
    ValidRangeSet (rs.foldl add_absent_range s) ∧
    ∀ k, key_in_ranges (rs.foldl add_absent_range s) k =
      (key_in_ranges s k ||
        rs.any (fun range => range.key_in_range k)) := by
  induction rs generalizing s with
  | nil =>
    refine ⟨hv, fun k => ?_⟩
    simp [key_in_ranges]
  | cons r rest ih =>
    rw [List.foldl_cons]
    by_cases hre : r.is_empty_range = true
    · have hadd : add_absent_range s r = s := by
        simp [add_absent_range, hre]
      rw [hadd]
      obtain ⟨ihv, ihm⟩ := ih s hv
      refine ⟨ihv, fun k => ?_⟩
      rw [ihm k, List.any_cons, key_in_range_of_empty r k hre, Bool.false_or]
    · have hre' : r.is_empty_range = false := Bool.not_eq_true _ ▸ hre
      have hadd : add_absent_range s r = insert_range r s := by
        simp [add_absent_range, hre']
      rw [hadd]
      obtain ⟨ihv, ihm⟩ :=
        ih (insert_range r s) (insert_range_valid r s hre' hv)
      refine ⟨ihv, fun k => ?_⟩
      rw [ihm k, key_in_insert_range r s k hv, List.any_cons]
      cases r.key_in_range k <;> cases key_in_ranges s k <;>
        cases rest.any (fun range => range.key_in_range k) <;> rfl

/-- C5: starting from an empty `absent_range_set`, after any sequence of
`add_absent_range` calls (overlapping or adjacent inputs included) the set is
sorted and pairwise non-overlapping, and `key_in_absent_set` returns true for
every key lying in some input range and false for every key outside all input
ranges. -/
theorem absent_range_set_spec (rs : List key_range_t) :
    ValidRangeSet (rs.foldl add_absent_range []) ∧
    ∀ k, key_in_absent_set (rs.foldl add_absent_range []) k =
      rs.any (fun range => range.key_in_range k) := by
  have hvempty : ValidRangeSet ([] : List key_range_t) :=
    ⟨by simp, List.Pairwise.nil⟩
  obtain ⟨hv, hm⟩ := foldl_add_absent_range rs [] hvempty
  refine ⟨hv, fun k => ?_⟩
  rw [key_in_absent_set_eq _ _ hv, hm k]
  simp [key_in_ranges]

/-! Section: Transaction-local search (C8) -/

/-- C8: within one transaction, `local_search(k)` returns the write-set entry
for `k` when one exists (even if a read-set entry for `k` also exists); when
only a read-set entry exists it returns that; and it returns not-found exactly
when neither set holds an entry for `k`. -/
theorem local_search_spec (write_set : List (key_type × record_t))
    (read_set : List (key_type × read_record_t)) (k : key_type) :
    (∀ v, write_set.lookup k = some v →
      local_search write_set read_set k = some v)
    ∧ (write_set.lookup k = none →
        ∀ rr, read_set.lookup k = some rr →
          local_search write_set read_set k = some rr.r)
    ∧ (local_search write_set read_set k = none ↔
        write_set.lookup k = none ∧ read_set.lookup k = none) := by
  refine ⟨?_, ?_, ?_⟩
  · intro v hv
    simp [local_search, local_search_str, hv]
  · intro hw rr hr
    simp [local_search, local_search_str, hw, hr]
  · unfold local_search local_search_str
    rcases hw : write_set.lookup k with _ | v
    · rcases hr : read_set.lookup k with _ | rr
      · simp
      · simp
    · simp

end Silo
